/-
Verification of the parallel HMM-clustering pipeline of `smyth.py`
(Smyth 1997 clustering of one-dimensional time series).

Shallow embedding conventions:
* Observations are modelled as exact rationals (`ℚ`); a sequence is a
  `List ℚ`.  The `float32` conversion on the stored distance matrix and
  floating-point over/underflow are outside the model.
* The external capabilities the core consumes (sklearn `k_means`, GHMM
  Baum-Welch training and log-likelihood, Pycluster `treecluster`/`cut`
  and `kmedoids`, numpy `std`, `hmm_utils.compositeTriple`) are collected
  in an `ExtCap` record of abstract functions.  GHMM model handles are
  identified with their parameter triples, so
  `tripleToHMM` / `hmmToTriple` / `toSequenceSet` conversions collapse;
  `hmm.baumWelch` followed by `hmmToTriple` is the capability
  `ExtCap.baumWelch : Triple → sequences → Triple`, and
  `tripleToHMM(t).loglikelihood(s)` is `ExtCap.loglikelihood t s`.
* A Python `assert` that can fail, and any exception (`ValueError` from
  `min([])`, aborted `pool.map` batches), are modelled by `Option`:
  `none` means the computation raised instead of returning.
* `pool.map` keeps submission order, so it is modelled as `List.map`
  (or `poolMap` below when the worker function can raise).
-/
import Mathlib

set_option maxRecDepth 10000

/-- A time series: an ordered list of scalar observations (source: a
sequence appearing in `S`). -/
abbrev TSeq : Type := List ℚ

/-- An HMM parameter triple `(A, B, pi)`: transition matrix, per-state
`(mean, stddev)` emission parameters, initial distribution. -/
structure Triple where
  A : List (List ℚ)
  B : List (ℚ × ℚ)
  pi : List ℚ
deriving DecidableEq

/-- Per-`k` mixture components accumulated by `HMMCluster._trainModels`:
`self.components[k]` with keys `hmm_triples`, `cluster_sizes`, `seq_lens`. -/
structure Components where
  hmm_triples : List Triple
  cluster_sizes : List ℕ
  seq_lens : List (List ℕ)
deriving DecidableEq

/-- The external capabilities consumed by `smyth.py` (all imported from
libraries that are out of scope for the core, per the spec §1/§6).
The Pycluster tree handle is modelled as the data the tree was built
from, so `cut` is an arbitrary function of (matrix, k). -/
structure ExtCap where
  k_means : List (List ℚ) → ℕ → List ℕ
  std : List (List ℚ) → ℚ
  baumWelch : Triple → List TSeq → Triple
  loglikelihood : Triple → TSeq → ℚ
  treecluster : List ℚ → List ℚ
  cut : List ℚ → ℕ → List ℕ
  kmedoids : List ℚ → ℕ → ℕ → (List ℕ × ℚ × ℕ)
  compositeTriple : Components → Triple

/-- Source line 33: `EPSILON = .5`, the variance floor. -/
def EPSILON : ℚ := 1/2

/-- Source `prepareSeqs(S)`: merge all observations into a list of
1-element vectors and collect the distinct observation values seen
(only the number of distinct values is ever used). -/
def prepareSeqs (S : List TSeq) : List (List ℚ) × List ℚ :=
  (S.flatten.map (fun o => [o]), S.flatten.dedup)

/-- numpy `mean` over a flattened cluster of observation vectors. -/
def listMean (xs : List ℚ) : ℚ := xs.sum / (xs.length : ℚ)

/-- Modelled from the spec: `cluster_utils.partition` is code of this
repository that is not under `src/`.  Spec §4.4: a Labeling is "derived
deterministically into a Partition by grouping Sequences by label,
preserving original sequence order within each group".  `distinctLabels`
lists the labels in order of first occurrence. -/
def distinctLabels : List ℕ → List ℕ
  | [] => []
  | l :: rest => l :: (distinctLabels rest).filter (fun x => !(x == l))

/-- The (item, label) pairs carrying a given label, in original order. -/
def selectLabel (z : List (α × ℕ)) (l : ℕ) : List α :=
  (z.filter (fun q => q.2 == l)).map Prod.fst

/-- Grouping of labelled items: one group per distinct label, in order
of first occurrence, each group in original item order. -/
def partitionAux (z : List (α × ℕ)) : List (List α) :=
  (distinctLabels (z.map Prod.snd)).map (selectLabel z)

/-- Modelled from the spec: `cluster_utils.partition(xs, labels)` groups
the items of `xs` by their label. -/
def partition (xs : List α) (labels : List ℕ) : List (List α) :=
  partitionAux (xs.zip labels)

/-- Modelled from the spec: `matrix_utils.uniformMatrix(m, n, v)` (code
of this repository not under `src/`) builds an m×n matrix with every
entry `v` (spec §4.2 step 4: "uniform transition matrix (every entry
1/r)"). -/
def uniformMatrix (m n : ℕ) (v : ℚ) : List (List ℚ) :=
  List.replicate m (List.replicate n v)

/-- Modelled from the spec: `levenshtein.levDistance` (code of this
repository not under `src/`) computes "a standard sequence edit
distance directly on the raw Sequences" (spec §4.3), a non-negative
value (spec §6 `PairDistanceStrategy`). -/
def levDistance : List ℚ → List ℚ → ℕ
  | [], ys => ys.length
  | x :: xs, [] => (x :: xs).length
  | x :: xs, y :: ys =>
      if x = y then levDistance xs ys
      else 1 + min (levDistance xs (y :: ys)) (min (levDistance (x :: xs) ys) (levDistance xs ys))
termination_by xs ys => xs.length + ys.length

/-- Source `smythEmissionDistribution(pair)` with `pair = (S, target_m)`:
merge the observations, bound the state count by
`m_prime = min(target_m, len(distinct))`, cluster the merged
observations with `k_means`, and emit one `(mean, stddev)` pair per
returned cluster.  (The `assert len(cluster) > 0` always holds here:
grouping by label never produces an empty group.) -/
def smythEmissionDistribution (ext : ExtCap) (pair : List TSeq × ℕ) : List (ℚ × ℚ) :=
  let merged := (prepareSeqs pair.1).1
  let m_prime := min pair.2 (prepareSeqs pair.1).2.length
  let labels := ext.k_means merged m_prime
  (partition merged labels).map (fun cluster => (listMean cluster.flatten, ext.std cluster))

/-- Source `smythDefaultTriple(pair)`: build the pre-training emission
list `B`, a uniform transition matrix and initial distribution, train
once with Baum-Welch, then return the POST-training `A_p`/`pi_p`
together with `B_p` rebound to the variance-floored PRE-training `B`
(the source maps the floor over `B`, not over the trained emissions). -/
def smythDefaultTriple (ext : ExtCap) (pair : List TSeq × ℕ) : Triple :=
  let B := smythEmissionDistribution ext pair
  let m_prime := B.length
  let A := uniformMatrix m_prime m_prime (1 / (m_prime : ℚ))
  let pi := List.replicate m_prime (1 / (m_prime : ℚ))
  let trained := ext.baumWelch ⟨A, B, pi⟩ pair.1
  ⟨trained.A, B.map (fun b => (b.1, max b.2 EPSILON)), trained.pi⟩

/-- Source `reestimated(pair)` with `pair = (triple, S)`: one Baum-Welch
pass on the triple, returning the re-estimated triple (no floor). -/
def reestimated (ext : ExtCap) (pair : Triple × List TSeq) : Triple :=
  ext.baumWelch pair.1 pair.2

/-- Source `trainHMM(pair)` with `pair = (cluster, m)`: Smyth default
initialization followed by one Baum-Welch refinement pass. -/
def trainHMM (ext : ExtCap) (pair : List TSeq × ℕ) : Triple :=
  reestimated ext (smythDefaultTriple ext pair, pair.1)

/-- `s1_m2` of `symDistance`: log-likelihood of `seq1` under `hmm2`. -/
def itemL1 (ext : ExtCap) (item : (TSeq × Triple) × (TSeq × Triple)) : ℚ :=
  ext.loglikelihood item.2.2 item.1.1

/-- `s2_m1` of `symDistance`: log-likelihood of `seq2` under `hmm1`. -/
def itemL2 (ext : ExtCap) (item : (TSeq × Triple) × (TSeq × Triple)) : ℚ :=
  ext.loglikelihood item.1.2 item.2.1

/-- Source `symDistance(args)` with
`args = ((seq1, triple1), (seq2, triple2))`: the two cross
log-likelihoods are asserted `<= 0` (assertion failure raises, i.e.
`none`), then their average is returned. -/
def symDistance (ext : ExtCap) (args : (TSeq × Triple) × (TSeq × Triple)) : Option ℚ :=
  if itemL1 ext args ≤ 0 ∧ itemL2 ext args ≤ 0 then
    some ((itemL1 ext args + itemL2 ext args) / 2)
  else none

/-- All unordered pairs `(xs[i], xs[j])`, `i < j`, in row-major order:
exactly the order of the two nested `for` loops in
`_getHMMBatchItems` / `_getEditDistMatrix`. -/
def upperPairs : List α → List (α × α)
  | [] => []
  | x :: rest => (rest.map (fun y => (x, y))) ++ upperPairs rest

/-- Source `HMMCluster._getHMMBatchItems`: for `i < j` yield
`((S[i], init_hmms[i]), (S[j], init_hmms[j]))`, row-major. -/
def getHMMBatchItems (S : List TSeq) (init_hmms : List Triple) :
    List ((TSeq × Triple) × (TSeq × Triple)) :=
  upperPairs (S.zip init_hmms)

/-- Source `_getHMMDistMatrix` lines 239-240: one default model per
sequence, `pool.map(init_fn, (([s], target_m) for s in S))`. -/
def initHMMs (ext : ExtCap) (S : List TSeq) (target_m : ℕ) : List Triple :=
  S.map (fun s => smythDefaultTriple ext ([s], target_m))

/-- The full batch of HMM-distance work items for a sequence set. -/
def hmmItems (ext : ExtCap) (S : List TSeq) (target_m : ℕ) :
    List ((TSeq × Triple) × (TSeq × Triple)) :=
  getHMMBatchItems S (initHMMs ext S target_m)

/-- Source line 243: `n_batchitems = (self.n)*(self.n+1)/2 - self.n`. -/
def nBatchItems (n : ℕ) : ℕ := n * (n + 1) / 2 - n

/-- Python `itertools.islice(it, start, stop)`. -/
def islice (l : List α) (start stop : ℕ) : List α :=
  (l.drop start).take (stop - start)

/-- `pool.map` with a worker function that can raise: a single failing
task aborts the whole batch (spec §7), hence `none`. -/
def poolMap (f : α → Option β) : List α → Option (List β)
  | [] => some []
  | x :: xs => (f x).bind (fun y => (poolMap f xs).map (fun ys => y :: ys))

/-- The chunk loop of `_getHMMDistMatrix` lines 251-256: for each chunk
index `i`, slice `[batch_size*i, min(batch_size*(i+1), n_batchitems))`
out of a fresh pair generator, map `symDistance` over it, and append
the results (`condensed += ...`). -/
def drainChunks (f : α → Option β) (items : List α) (nb bs : ℕ) :
    List ℕ → Option (List β)
  | [] => some []
  | i :: rest =>
    (poolMap f (islice items (bs * i) (min (bs * (i + 1)) nb))).bind
      (fun c => (drainChunks f items nb bs rest).map (fun r => c ++ r))

/-- Source line 250: `batch_size = 500000`. -/
def batchSize : ℕ := 500000

/-- Source `HMMCluster._getHMMDistMatrix` (Smyth initialization branch),
with the chunk size as a parameter (the source fixes `batchSize`):
drain the pair batch in chunks `i = 0 .. n_batchitems/batch_size`,
negate every entry (`shifted = map(lambda l: -1*l, condensed)`), and
print min/max of `shifted` — `min([])` raises `ValueError`, so an empty
`shifted` yields no matrix (`none`).  The trailing `float32` cast is
not modelled (entries stay exact rationals). -/
def getHMMDistMatrix (ext : ExtCap) (S : List TSeq) (target_m bs : ℕ) : Option (List ℚ) :=
  (drainChunks (symDistance ext) (hmmItems ext S target_m) (nBatchItems S.length) bs
      (List.range (nBatchItems S.length / bs + 1))).bind (fun condensed =>
    if (condensed.map (fun l => (-1 : ℚ) * l)).isEmpty then none
    else some (condensed.map (fun l => (-1 : ℚ) * l)))

/-- Spec-side definition for the refinement claim: the unchunked
computation, all pairs submitted to the pool at once, with the same
negation and empty-`min` behavior. -/
def getHMMDistMatrixUnchunked (ext : ExtCap) (S : List TSeq) (target_m : ℕ) : Option (List ℚ) :=
  (poolMap (symDistance ext) (hmmItems ext S target_m)).bind (fun condensed =>
    if (condensed.map (fun l => (-1 : ℚ) * l)).isEmpty then none
    else some (condensed.map (fun l => (-1 : ℚ) * l)))

/-- Source `HMMCluster._getEditDistMatrix`: edit distance on every
unordered pair, row-major, no model construction, no negation. -/
def getEditDistMatrix (S : List TSeq) : List ℚ :=
  (upperPairs S).map (fun p => ((levDistance p.1 p.2 : ℕ) : ℚ))

/-- Source `kMedoids(args)` with `args = (dist_matrix, k, n_passes)`. -/
def kMedoids (ext : ExtCap) (args : List ℚ × ℕ × ℕ) : List ℕ × ℚ × ℕ :=
  ext.kmedoids args.1 args.2.1 args.2.2

/-- The configuration fields validated by `HMMCluster._sanityCheck`. -/
structure HMMClusterConfig where
  min_k : ℕ
  max_k : ℕ
  dist_func : String
  hmm_init : String
  clust_alg : String
  train_mode : String
deriving DecidableEq

/-- Source `HMMCluster._sanityCheck`: the five `assert` statements; all
must hold or construction raises. -/
def sanityCheck (c : HMMClusterConfig) : Bool :=
  decide (c.min_k ≤ c.max_k ∧
    c.dist_func ∈ ["hmm", "editdistance"] ∧
    c.hmm_init ∈ ["smyth", "random"] ∧
    c.clust_alg ∈ ["hierarchical", "kmedoids"] ∧
    c.train_mode ∈ ["blockdiag", "cluster"])

/-- The two ordered events of `HMMCluster.__init__` that matter for
fail-fast: the `_sanityCheck()` call (line 204) and the
`Pool(n_jobs)` creation (line 212), in source order. -/
inductive InitEvent
  | sanity_check
  | pool_create
deriving DecidableEq

/-- Event trace of `HMMCluster.__init__`: `_sanityCheck` runs first; a
failed assertion aborts `__init__` before `self.pool = Pool(n_jobs)`. -/
def initTrace (c : HMMClusterConfig) : List InitEvent :=
  if sanityCheck c then [InitEvent.sanity_check, InitEvent.pool_create]
  else [InitEvent.sanity_check]

/-- The state `HMMCluster.__init__` leaves behind when it succeeds. -/
structure HMMClusterState where
  config : HMMClusterConfig
  k_values : List ℕ
  pool_created : Bool
deriving DecidableEq

/-- Source `HMMCluster.__init__`: validation, then
`k_values = range(min_k, max_k+1)`, then the worker pool; `none` when
an assertion fails (construction raises, no pool is ever created). -/
def hmmClusterInit (c : HMMClusterConfig) : Option HMMClusterState :=
  if sanityCheck c then
    some ⟨c, List.range' c.min_k (c.max_k + 1 - c.min_k), true⟩
  else none

/-- The external-call events of `HMMCluster._hierarchical`. -/
inductive ClustEvent
  | treecluster_call
  | cut_call (k : ℕ)
deriving DecidableEq

/-- Event trace of `_hierarchical`: `treecluster` is called once, before
the `for k in self.k_values` loop; the loop then calls `tree.cut(k)`
once per `k`. -/
def hierarchicalTrace (kvs : List ℕ) : List ClustEvent :=
  ClustEvent.treecluster_call :: kvs.map ClustEvent.cut_call

/-- Source `HMMCluster._hierarchical` (given the distance matrix): build
the tree once, then per `k` record the labeling `tree.cut(k)` and the
partition `partition(self.S, labels)`. -/
def hierarchicalPartitions (ext : ExtCap) (S : List TSeq) (dm : List ℚ) (kvs : List ℕ) :
    List (ℕ × List ℕ) × List (ℕ × List (List TSeq)) :=
  let tree := ext.treecluster dm
  (kvs.map (fun k => (k, ext.cut tree k)),
   kvs.map (fun k => (k, partition S (ext.cut tree k))))

/-- The index walk of `_trainModels` lines 363-373: for each `k`, pop
exactly `k` entries off the flat result lists (idx advances by one per
cluster, `for i in xrange(0, k)`). -/
def reassemble : List ℕ → List Triple → List ℕ → List (List ℕ) → List (ℕ × Components)
  | [], _, _, _ => []
  | k :: rest, ts, ss, ls =>
    (k, ⟨ts.take k, ss.take k, ls.take k⟩) ::
      reassemble rest (ts.drop k) (ss.drop k) (ls.drop k)

/-- Source `HMMCluster._trainModels`: flatten all clusters across all
`k` values into one batch (building `cluster_sizes` and `seq_lens` in
the same loop), train every cluster in one `pool.map(trainHMM, ...)`,
then reassemble per-`k` components by the index walk. -/
def trainModels (ext : ExtCap) (kvs : List ℕ) (partitions : ℕ → List (List TSeq))
    (target_m : ℕ) : List (ℕ × Components) :=
  reassemble kvs
    ((kvs.flatMap partitions).map (fun c => trainHMM ext (c, target_m)))
    ((kvs.flatMap partitions).map List.length)
    ((kvs.flatMap partitions).map (fun c => c.map List.length))

/-- Everything `HMMCluster.model()` populates. -/
structure PipelineResult where
  dist_matrix : List ℚ
  labelings : List (ℕ × List ℕ)
  partitions : List (ℕ × List (List TSeq))
  components : List (ℕ × Components)
  composites : List (ℕ × Triple)
deriving DecidableEq

/-- The whole pipeline `HMMCluster.__init__` + `model()` as one pure
function of the inputs and the external capabilities: validate, build
the distance matrix with the configured strategy (`random`
initialization is an unimplemented placeholder: `randomDefaultTriple`
is `pass`, so that branch crashes), cluster per `k` with the configured
algorithm, train and compose. -/
def modelPipeline (ext : ExtCap) (S : List TSeq) (target_m : ℕ)
    (cfg : HMMClusterConfig) (bs : ℕ) : Option PipelineResult :=
  if sanityCheck cfg then
    match (if cfg.dist_func = "hmm" then
             (if cfg.hmm_init = "smyth" then getHMMDistMatrix ext S target_m bs else none)
           else if cfg.dist_func = "editdistance" then some (getEditDistMatrix S)
           else none) with
    | none => none
    | some dm =>
      let kvs := List.range' cfg.min_k (cfg.max_k + 1 - cfg.min_k)
      let labelings :=
        if cfg.clust_alg = "hierarchical" then (hierarchicalPartitions ext S dm kvs).1
        else kvs.map (fun k => (k, (kMedoids ext (dm, k, 10)).1))
      let parts := labelings.map (fun p => (p.1, partition S p.2))
      let comps := trainModels ext kvs
        (fun k => partition S ((labelings.lookup k).getD [])) target_m
      some ⟨dm, labelings, parts, comps,
        comps.map (fun p => (p.1, ext.compositeTriple p.2))⟩
  else none

/-- The fate of the local variable `start` in `_getHMMDistMatrix`:
`start = clock()` before the chunk loop, but each loop iteration
executes `start, stop = batch_size*i, min(batch_size*(i+1), n_batchitems)`,
rebinding `start` to a pair INDEX.  The loop always runs at least once
(`range(0, nb/bs + 1)`). -/
def startVarAfterLoop (clock_start : ℚ) (nb bs : ℕ) : ℚ :=
  (List.range (nb / bs + 1)).foldl (fun _ i => ((bs * i : ℕ) : ℚ)) clock_start

/-- Source line 257: `self.times['distance_matrix'] = clock() - start`,
where `start` holds whatever the loop left in it. -/
def recordedDistanceMatrixTime (clock_start clock_end : ℚ) (n bs : ℕ) : ℚ :=
  clock_end - startVarAfterLoop clock_start (nBatchItems n) bs

/-- Default work item (used only as the `List.getD` fallback). -/
def defItem : (TSeq × Triple) × (TSeq × Triple) :=
  (([], ⟨[], [], []⟩), ([], ⟨[], [], []⟩))

/-- A concrete instance of the external capabilities, used to exercise
the theorems on closed inputs: k-means puts everything in one group,
stddev is 1, Baum-Welch is the identity, the log-likelihood of `s` is
`-(length s)` (always non-positive), and cutting the tree at `k`
returns the labels `0..k-1`. -/
def extW : ExtCap where
  k_means := fun merged _ => merged.map (fun _ => 0)
  std := fun _ => 1
  baumWelch := fun t _ => t
  loglikelihood := fun _ s => -(s.length : ℚ)
  treecluster := fun dm => dm
  cut := fun _ k => List.range k
  kmedoids := fun _ _ _ => ([], 0, 0)
  compositeTriple := fun _ => ⟨[], [], []⟩

/-- External capabilities whose Baum-Welch refinement re-estimates every
emission stddev to 1/4 — a behavior the TrainableModel interface
permits (`refine` returns an arbitrary new Triple). -/
def extCex2 : ExtCap where
  k_means := fun merged _ => merged.map (fun _ => 0)
  std := fun _ => 0
  baumWelch := fun t _ => ⟨t.A, t.B.map (fun b => (b.1, 1/4)), t.pi⟩
  loglikelihood := fun _ _ => 0
  treecluster := fun dm => dm
  cut := fun _ k => List.range k
  kmedoids := fun _ _ _ => ([], 0, 0)
  compositeTriple := fun _ => ⟨[], [], []⟩

/-- External capabilities whose Baum-Welch training rescales the
transition matrix and the initial distribution, as real training
generally does. -/
def extCex3 : ExtCap where
  k_means := fun merged _ => merged.map (fun _ => 0)
  std := fun _ => 0
  baumWelch := fun t _ =>
    ⟨t.A.map (fun row => row.map (fun x => x / 3)), t.B, t.pi.map (fun x => x / 2)⟩
  loglikelihood := fun _ _ => 0
  treecluster := fun dm => dm
  cut := fun _ k => List.range k
  kmedoids := fun _ _ _ => ([], 0, 0)
  compositeTriple := fun _ => ⟨[], [], []⟩

/-- The initial (pre-training) triple that `smythDefaultTriple` hands to
Baum-Welch for the one-sequence input `[[1]]` under `extW`. -/
def initW : Triple :=
  ⟨uniformMatrix 1 1 (1 / (1 : ℚ)), [((1 : ℚ), (1 : ℚ))], List.replicate 1 (1 / (1 : ℚ))⟩

/-- A concrete one-cluster-per-k partition map. -/
def partitionsW : ℕ → List (List TSeq) := fun _ => [[[(1 : ℚ)]]]

/-- A valid configuration. -/
def cfgW : HMMClusterConfig :=
  ⟨2, 2, "editdistance", "smyth", "hierarchical", "cluster"⟩

/-- An invalid configuration: `min_k > max_k`. -/
def cfgBad : HMMClusterConfig :=
  ⟨2, 1, "hmm", "smyth", "hierarchical", "cluster"⟩

/-! ### Helper lemmas: pair counting -/

theorem upperPairs_length_mul (l : List α) :
    2 * (upperPairs l).length + 2 * l.length = l.length * (l.length + 1) := by
  induction l with
  | nil => simp [upperPairs]
  | cons x rest ih =>
    simp only [upperPairs, List.length_append, List.length_map, List.length_cons]
    have key : (rest.length + 1) * (rest.length + 1 + 1) =
        rest.length * (rest.length + 1) + 2 * (rest.length + 1) := by ring
    omega

theorem upperPairs_length (l : List α) :
    (upperPairs l).length = l.length * (l.length - 1) / 2 := by
  have h := upperPairs_length_mul l
  cases hn : l.length with
  | zero => rw [hn] at h; omega
  | succ m =>
    rw [hn] at h
    simp only [Nat.add_sub_cancel]
    have key : (m + 1) * (m + 1 + 1) = (m + 1) * m + 2 * (m + 1) := by ring
    omega

theorem nBatchItems_eq (n : ℕ) : nBatchItems n = n * (n - 1) / 2 := by
  unfold nBatchItems
  cases n with
  | zero => rfl
  | succ m =>
    simp only [Nat.add_sub_cancel]
    have key : (m + 1) * (m + 1 + 1) = (m + 1) * m + 2 * (m + 1) := by ring
    omega

theorem hmmItems_length (ext : ExtCap) (S : List TSeq) (m : ℕ) :
    (hmmItems ext S m).length = nBatchItems S.length := by
  unfold hmmItems getHMMBatchItems initHMMs
  rw [upperPairs_length, List.length_zip, List.length_map, Nat.min_self, nBatchItems_eq]

/-! ### Helper lemmas: poolMap and the chunk loop -/

theorem getD_map (f : α → β) (l : List α) (i : ℕ) (d : α) :
    (l.map f).getD i (f d) = f (l.getD i d) := by
  induction l generalizing i with
  | nil => simp
  | cons x xs ih => cases i with
    | zero => simp
    | succ j => simp only [List.map_cons, List.getD_cons_succ]; exact ih j

theorem poolMap_length (f : α → Option β) (l : List α) (ys : List β)
    (h : poolMap f l = some ys) : ys.length = l.length := by
  induction l generalizing ys with
  | nil => simp [poolMap] at h; simp [← h]
  | cons x xs ih =>
    simp only [poolMap] at h
    cases hfx : f x with
    | none => rw [hfx] at h; simp at h
    | some y =>
      cases hxs : poolMap f xs with
      | none => rw [hfx, hxs] at h; simp at h
      | some ys' =>
        rw [hfx, hxs] at h
        simp at h
        subst h
        simp [ih ys' hxs]

theorem poolMap_getD (f : α → Option β) (l : List α) (ys : List β)
    (h : poolMap f l = some ys) (i : ℕ) (hi : i < ys.length) (d : α) (d' : β) :
    f (l.getD i d) = some (ys.getD i d') := by
  induction l generalizing ys i with
  | nil => simp [poolMap] at h; subst h; simp at hi
  | cons x xs ih =>
    simp only [poolMap] at h
    cases hfx : f x with
    | none => rw [hfx] at h; simp at h
    | some y =>
      cases hxs : poolMap f xs with
      | none => rw [hfx, hxs] at h; simp at h
      | some ys' =>
        rw [hfx, hxs] at h
        simp at h
        subst h
        cases i with
        | zero => simpa using hfx
        | succ j =>
          simp only [List.getD_cons_succ]
          exact ih ys' hxs j (by simpa using hi)

theorem poolMap_mem (f : α → Option β) (l : List α) (ys : List β)
    (h : poolMap f l = some ys) (y : β) (hy : y ∈ ys) :
    ∃ x ∈ l, f x = some y := by
  induction l generalizing ys with
  | nil => simp [poolMap] at h; subst h; simp at hy
  | cons x xs ih =>
    simp only [poolMap] at h
    cases hfx : f x with
    | none => rw [hfx] at h; simp at h
    | some y' =>
      cases hxs : poolMap f xs with
      | none => rw [hfx, hxs] at h; simp at h
      | some ys' =>
        rw [hfx, hxs] at h
        simp at h
        subst h
        rcases List.mem_cons.mp hy with h1 | h1
        · exact ⟨x, by simp, h1 ▸ hfx⟩
        · rcases ih ys' hxs h1 with ⟨x', hx', hfx'⟩
          exact ⟨x', by simp [hx'], hfx'⟩

theorem poolMap_append (f : α → Option β) (l1 l2 : List α) :
    poolMap f (l1 ++ l2) =
      (poolMap f l1).bind (fun a => (poolMap f l2).map (fun b => a ++ b)) := by
  induction l1 with
  | nil =>
    simp only [List.nil_append, poolMap, Option.bind_some]
    cases poolMap f l2 <;> simp
  | cons x xs ih =>
    simp only [List.cons_append, poolMap, List.append_eq, ih]
    cases hfx : f x <;> cases hxs : poolMap f xs <;> cases hl2 : poolMap f l2 <;>
      simp [hfx, hxs, hl2]

theorem drainChunks_append (f : α → Option β) (items : List α) (nb bs : ℕ)
    (is js : List ℕ) :
    drainChunks f items nb bs (is ++ js) =
      (drainChunks f items nb bs is).bind
        (fun a => (drainChunks f items nb bs js).map (fun b => a ++ b)) := by
  induction is with
  | nil =>
    simp only [List.nil_append, drainChunks, Option.bind_some]
    cases drainChunks f items nb bs js <;> simp
  | cons i rest ih =>
    simp only [List.cons_append, drainChunks, List.append_eq, ih]
    cases hp : poolMap f (islice items (bs * i) (min (bs * (i + 1)) nb)) <;>
      cases hr : drainChunks f items nb bs rest <;>
      cases hj : drainChunks f items nb bs js <;> simp [hp, hr, hj]

theorem drainChunks_range (f : α → Option β) (items : List α) (nb bs : ℕ) :
    ∀ k, drainChunks f items nb bs (List.range k) =
      poolMap f (items.take (min (bs * k) nb)) := by
  intro k
  induction k with
  | zero => simp [drainChunks, poolMap, List.range_zero]
  | succ k ih =>
    rw [List.range_succ, drainChunks_append, ih]
    have hone : drainChunks f items nb bs [k] =
        poolMap f (islice items (bs * k) (min (bs * (k + 1)) nb)) := by
      simp only [drainChunks]
      cases poolMap f (islice items (bs * k) (min (bs * (k + 1)) nb)) <;> simp
    rw [hone]
    by_cases hc : bs * k ≤ nb
    · have ha : min (bs * k) nb = bs * k := min_eq_left hc
      have hab : bs * k ≤ min (bs * (k + 1)) nb := by
        have hmono : bs * k ≤ bs * (k + 1) := Nat.mul_le_mul_left bs (Nat.le_succ k)
        exact le_min hmono hc
      have htake : items.take (min (bs * (k + 1)) nb) =
          items.take (bs * k) ++ islice items (bs * k) (min (bs * (k + 1)) nb) := by
        simp only [islice]
        rw [← List.take_add, Nat.add_sub_cancel' hab]
      rw [ha, htake, poolMap_append]
    · push_neg at hc
      have ha : min (bs * k) nb = nb := min_eq_right (le_of_lt hc)
      have hb : min (bs * (k + 1)) nb = nb :=
        min_eq_right (le_trans (le_of_lt hc) (Nat.mul_le_mul_left bs (Nat.le_succ k)))
      have hsl : islice items (bs * k) (min (bs * (k + 1)) nb) = [] := by
        simp only [islice, hb]
        rw [Nat.sub_eq_zero_of_le (le_of_lt hc), List.take_zero]
      rw [hsl, ha, hb]
      simp only [poolMap]
      cases hp : poolMap f (items.take nb) <;> simp [hp]

theorem drainChunks_covers (f : α → Option β) (items : List α) (nb bs : ℕ)
    (hbs : 0 < bs) (hlen : items.length ≤ nb) :
    drainChunks f items nb bs (List.range (nb / bs + 1)) = poolMap f items := by
  rw [drainChunks_range f items nb bs (nb / bs + 1)]
  have h1 : nb ≤ bs * (nb / bs + 1) := by
    have hd := Nat.div_add_mod nb bs
    have hm : nb % bs < bs := Nat.mod_lt nb hbs
    have hmul : bs * (nb / bs + 1) = bs * (nb / bs) + bs := by ring
    omega
  rw [min_eq_right h1, List.take_of_length_le hlen]

theorem getHMMDistMatrix_eq_unchunked (ext : ExtCap) (S : List TSeq) (m bs : ℕ)
    (hbs : 0 < bs) :
    getHMMDistMatrix ext S m bs = getHMMDistMatrixUnchunked ext S m := by
  unfold getHMMDistMatrix getHMMDistMatrixUnchunked
  rw [drainChunks_covers (symDistance ext) (hmmItems ext S m) (nBatchItems S.length) bs hbs
    (le_of_eq (hmmItems_length ext S m))]

/-! ### Helper lemmas: grouping by label -/

theorem distinctLabels_mem (L : List ℕ) (a : ℕ) : a ∈ distinctLabels L ↔ a ∈ L := by
  induction L with
  | nil => simp [distinctLabels]
  | cons l rest ih =>
    simp only [distinctLabels, List.mem_cons, List.mem_filter]
    constructor
    · rintro (rfl | ⟨hmem, _⟩)
      · exact Or.inl rfl
      · exact Or.inr (ih.mp hmem)
    · rintro (rfl | hmem)
      · exact Or.inl rfl
      · by_cases hae : a = l
        · exact Or.inl hae
        · exact Or.inr ⟨ih.mpr hmem, by simp [hae]⟩

theorem distinctLabels_nodup (L : List ℕ) : (distinctLabels L).Nodup := by
  induction L with
  | nil => simp [distinctLabels]
  | cons l rest ih =>
    simp only [distinctLabels]
    refine List.nodup_cons.mpr ⟨?_, ih.filter _⟩
    intro hmem
    rcases List.mem_filter.mp hmem with ⟨_, hcond⟩
    simp at hcond

theorem distinctLabels_toFinset (L : List ℕ) :
    (distinctLabels L).toFinset = L.toFinset := by
  ext a
  simp [distinctLabels_mem]

theorem distinctLabels_length (L : List ℕ) :
    (distinctLabels L).length = L.toFinset.card := by
  rw [← distinctLabels_toFinset, List.toFinset_card_of_nodup (distinctLabels_nodup L)]

theorem partitionAux_length (z : List (α × ℕ)) :
    (partitionAux z).length = (z.map Prod.snd).toFinset.card := by
  unfold partitionAux
  rw [List.length_map, distinctLabels_length]

theorem partitionAux_ne_nil (z : List (α × ℕ)) (g : List α)
    (hg : g ∈ partitionAux z) : g ≠ [] := by
  unfold partitionAux at hg
  rcases List.mem_map.mp hg with ⟨l, hl, rfl⟩
  have hlz : l ∈ z.map Prod.snd := (distinctLabels_mem _ _).mp hl
  rcases List.mem_map.mp hlz with ⟨q, hq, rfl⟩
  have hmem : q.1 ∈ selectLabel z q.2 := by
    unfold selectLabel
    exact List.mem_map.mpr ⟨q, List.mem_filter.mpr ⟨hq, by simp⟩, rfl⟩
  intro hnil
  rw [hnil] at hmem
  simp at hmem

theorem flatten_selectLabel_perm (D : List ℕ) :
    ∀ z : List (α × ℕ), D.Nodup → (∀ q ∈ z, q.2 ∈ D) →
      ((D.map (selectLabel z)).flatten).Perm (z.map Prod.fst) := by
  induction D with
  | nil =>
    intro z _ hz
    have hznil : z = [] := by
      cases z with
      | nil => rfl
      | cons q t => exact absurd (hz q (by simp)) (by simp)
    subst hznil
    simp
  | cons l D' ih =>
    intro z hD hz
    have hDnodup : D'.Nodup := (List.nodup_cons.mp hD).2
    have hlnotmem : l ∉ D' := (List.nodup_cons.mp hD).1
    have hmapeq : D'.map (selectLabel z) =
        D'.map (selectLabel (z.filter (fun q => !(q.2 == l)))) := by
      refine List.map_congr_left ?_
      intro l' hl'
      unfold selectLabel
      congr 1
      rw [List.filter_filter]
      refine (List.filter_congr ?_).symm
      intro q hq
      by_cases hq2 : q.2 = l'
      · have hne : l' ≠ l := fun he => hlnotmem (he ▸ hl')
        simp [hq2, hne]
      · simp [hq2]
    have hz' : ∀ q ∈ z.filter (fun q => !(q.2 == l)), q.2 ∈ D' := by
      intro q hq
      rcases List.mem_filter.mp hq with ⟨hqz, hcond⟩
      rcases List.mem_cons.mp (hz q hqz) with h1 | h1
      · rw [h1] at hcond; simp at hcond
      · exact h1
    have hIH := ih (z.filter (fun q => !(q.2 == l))) hDnodup hz'
    simp only [List.map_cons, List.flatten_cons]
    rw [hmapeq]
    have step1 : (selectLabel z l ++
        (D'.map (selectLabel (z.filter (fun q => !(q.2 == l))))).flatten).Perm
        (selectLabel z l ++ (z.filter (fun q => !(q.2 == l))).map Prod.fst) :=
      List.Perm.append_left _ hIH
    have step2 : selectLabel z l ++ (z.filter (fun q => !(q.2 == l))).map Prod.fst =
        ((z.filter (fun q => q.2 == l)) ++ z.filter (fun q => !(q.2 == l))).map Prod.fst := by
      rw [List.map_append]
      rfl
    have step3 : (((z.filter (fun q => q.2 == l)) ++
        z.filter (fun q => !(q.2 == l))).map Prod.fst).Perm (z.map Prod.fst) :=
      List.Perm.map Prod.fst (List.filter_append_perm _ z)
    refine step1.trans ?_
    rw [step2]
    exact step3

theorem partitionAux_flatten_perm (z : List (α × ℕ)) :
    ((partitionAux z).flatten).Perm (z.map Prod.fst) := by
  unfold partitionAux
  exact flatten_selectLabel_perm _ z (distinctLabels_nodup _)
    (fun q hq => (distinctLabels_mem _ _).mpr (List.mem_map.mpr ⟨q, hq, rfl⟩))

theorem partition_length_of_labels (xs : List α) (labels : List ℕ) (k : ℕ)
    (hlen : labels.length = xs.length)
    (hlt : ∀ l ∈ labels, l < k) (hsur : ∀ j, j < k → j ∈ labels) :
    (partition xs labels).length = k := by
  unfold partition
  rw [partitionAux_length, List.map_snd_zip xs labels (le_of_eq hlen)]
  have hfin : labels.toFinset = Finset.range k := by
    ext j
    simp only [List.mem_toFinset, Finset.mem_range]
    exact ⟨fun h => hlt j h, fun h => hsur j h⟩
  rw [hfin, Finset.card_range]

theorem partition_groups_ne_nil (xs : List α) (labels : List ℕ) :
    ∀ g ∈ partition xs labels, g ≠ [] :=
  fun g hg => partitionAux_ne_nil _ g hg

theorem partition_flatten_perm (xs : List α) (labels : List ℕ)
    (hlen : labels.length = xs.length) :
    ((partition xs labels).flatten).Perm xs := by
  unfold partition
  have h := partitionAux_flatten_perm (xs.zip labels)
  rwa [List.map_fst_zip xs labels (le_of_eq hlen.symm)] at h

theorem partition_length_le (xs : List α) (labels : List ℕ) (m : ℕ)
    (hlt : ∀ l ∈ labels, l < m) :
    (partition xs labels).length ≤ m := by
  unfold partition
  rw [partitionAux_length]
  have hsub : ((xs.zip labels).map Prod.snd).toFinset ⊆ Finset.range m := by
    intro j hj
    rcases List.mem_map.mp (List.mem_toFinset.mp hj) with ⟨q, hq, rfl⟩
    exact Finset.mem_range.mpr (hlt q.2 (List.of_mem_zip hq).2)
  exact le_trans (Finset.card_le_card hsub) (le_of_eq (Finset.card_range m))

/-! ### Claim theorems -/

/-- C1: for every unordered pair `(i, j)` with `i < j`, the HMM-distance
strategy stores as the distance entry the negation of the average of
the two cross log-likelihoods, `-(L(i under model_j) + L(j under
model_i)) / 2`; each constituent log-likelihood passed its `<= 0`
assertion, so every stored entry is non-negative. -/
theorem symDistance_matrix_entries (ext : ExtCap) (S : List TSeq) (m bs : ℕ)
    (mat : List ℚ) (hbs : 1 ≤ bs)
    (hmat : getHMMDistMatrix ext S m bs = some mat)
    (i : ℕ) (hi : i < mat.length) :
    itemL1 ext ((hmmItems ext S m).getD i defItem) ≤ 0 ∧
    itemL2 ext ((hmmItems ext S m).getD i defItem) ≤ 0 ∧
    mat.getD i 0 = -((itemL1 ext ((hmmItems ext S m).getD i defItem) +
      itemL2 ext ((hmmItems ext S m).getD i defItem)) / 2) ∧
    0 ≤ mat.getD i 0 := by
  rw [getHMMDistMatrix_eq_unchunked ext S m bs hbs] at hmat
  unfold getHMMDistMatrixUnchunked at hmat
  cases hpool : poolMap (symDistance ext) (hmmItems ext S m) with
  | none => rw [hpool] at hmat; simp at hmat
  | some condensed =>
    rw [hpool, Option.some_bind] at hmat
    by_cases hemp : (condensed.map (fun l => (-1 : ℚ) * l)).isEmpty
    · rw [if_pos hemp] at hmat; simp at hmat
    · rw [if_neg hemp] at hmat
      have hmat' : mat = condensed.map (fun l => (-1 : ℚ) * l) := by
        simpa using hmat.symm
      subst hmat'
      have hic : i < condensed.length := by simpa using hi
      have hgd : (condensed.map (fun l => (-1 : ℚ) * l)).getD i 0 =
          (-1) * condensed.getD i 0 := by
        have h := getD_map (fun l => (-1 : ℚ) * l) condensed i 0
        simpa using h
      have hsym : symDistance ext ((hmmItems ext S m).getD i defItem) =
          some (condensed.getD i 0) :=
        poolMap_getD _ _ _ hpool i hic defItem 0
      unfold symDistance at hsym
      by_cases hcond : itemL1 ext ((hmmItems ext S m).getD i defItem) ≤ 0 ∧
          itemL2 ext ((hmmItems ext S m).getD i defItem) ≤ 0
      · rw [if_pos hcond] at hsym
        have havg : (itemL1 ext ((hmmItems ext S m).getD i defItem) +
            itemL2 ext ((hmmItems ext S m).getD i defItem)) / 2 = condensed.getD i 0 := by
          simpa using hsym
        refine ⟨hcond.1, hcond.2, ?_, ?_⟩
        · rw [hgd, ← havg]; ring
        · rw [hgd, ← havg]
          have h1 := hcond.1
          have h2 := hcond.2
          linarith
      · rw [if_neg hcond] at hsym
        simp at hsym

/-- C1 witness: the theorem instantiated on a concrete two-sequence run
whose distance matrix is `[1]`. -/
theorem symDistance_matrix_entries_witness :
    itemL1 extW ((hmmItems extW [[(1:ℚ)], [(2:ℚ)]] 1).getD 0 defItem) ≤ 0 ∧
    itemL2 extW ((hmmItems extW [[(1:ℚ)], [(2:ℚ)]] 1).getD 0 defItem) ≤ 0 ∧
    [(1:ℚ)].getD 0 0 = -((itemL1 extW ((hmmItems extW [[(1:ℚ)], [(2:ℚ)]] 1).getD 0 defItem) +
      itemL2 extW ((hmmItems extW [[(1:ℚ)], [(2:ℚ)]] 1).getD 0 defItem)) / 2) ∧
    0 ≤ [(1:ℚ)].getD 0 0 :=
  symDistance_matrix_entries extW [[(1:ℚ)], [(2:ℚ)]] 1 1 [(1:ℚ)]
    (by decide)
    (by norm_num [getHMMDistMatrix, hmmItems, getHMMBatchItems, initHMMs, upperPairs,
      smythDefaultTriple, smythEmissionDistribution, prepareSeqs, partition, partitionAux,
      distinctLabels, selectLabel, listMean, uniformMatrix, EPSILON, nBatchItems,
      drainChunks, islice, poolMap, symDistance, itemL1, itemL2, extW])
    0 (by decide)

/-- C2 counterexample: under an admissible Baum-Welch refinement (the
TrainableModel capability may return any re-estimated triple),
`trainHMM` outputs an emission stddev of 1/4 < 0.5: the refinement pass
returns the re-estimated emissions with no floor re-applied. -/
theorem trainHMM_stddev_floor_cex :
    (trainHMM extCex2 ([[(0:ℚ)]], 1)).B = [((0:ℚ), (1/4 : ℚ))] ∧
    ¬ EPSILON ≤ (1/4 : ℚ) := by
  constructor
  · norm_num [trainHMM, reestimated, smythDefaultTriple, smythEmissionDistribution,
      prepareSeqs, partition, partitionAux, distinctLabels, selectLabel, listMean,
      uniformMatrix, EPSILON, extCex2]
  · norm_num [EPSILON]

/-- C2 (amended): the variance floor holds for the triples produced by
the default initializer `smythDefaultTriple` (whose emission list is
the floored pre-training list); `trainHMM`'s final Baum-Welch
refinement returns the re-estimated triple without re-applying the
floor, so no such guarantee exists for `trainHMM`'s output. -/
theorem smythDefaultTriple_stddev_floor (ext : ExtCap) (pair : List TSeq × ℕ) :
    ∀ b ∈ (smythDefaultTriple ext pair).B, EPSILON ≤ b.2 := by
  intro b hb
  have hB : (smythDefaultTriple ext pair).B =
      (smythEmissionDistribution ext pair).map (fun b => (b.1, max b.2 EPSILON)) := rfl
  rw [hB] at hb
  rcases List.mem_map.mp hb with ⟨b0, _, rfl⟩
  exact le_max_right _ _

/-- C2 witness: the floor theorem applied to the concrete emission pair
`(1, 1)` of a concrete initializer run. -/
theorem smythDefaultTriple_stddev_floor_witness :
    ((1:ℚ), (1:ℚ)) ∈ (smythDefaultTriple extW ([[(1:ℚ)]], 1)).B ∧
    EPSILON ≤ ((1:ℚ), (1:ℚ)).2 :=
  ⟨by norm_num [smythDefaultTriple, smythEmissionDistribution, prepareSeqs, partition,
      partitionAux, distinctLabels, selectLabel, listMean, uniformMatrix, EPSILON, extW],
   smythDefaultTriple_stddev_floor extW ([[(1:ℚ)]], 1) ((1:ℚ), (1:ℚ))
    (by norm_num [smythDefaultTriple, smythEmissionDistribution, prepareSeqs, partition,
      partitionAux, distinctLabels, selectLabel, listMean, uniformMatrix, EPSILON, extW])⟩

/-- C3 counterexample: with one state (`r = 1`) the claimed uniform
returned triple would have `A = [[1]]` and `pi = [1]`, but under an
admissible Baum-Welch capability the returned transition matrix and
initial distribution are the post-training ones (`[[1/3]]`, `[1/2]`). -/
theorem smythDefaultTriple_uniform_cex :
    (smythDefaultTriple extCex3 ([[(0:ℚ)]], 1)).B.length = 1 ∧
    (smythDefaultTriple extCex3 ([[(0:ℚ)]], 1)).A ≠ uniformMatrix 1 1 (1 / (1:ℚ)) ∧
    (smythDefaultTriple extCex3 ([[(0:ℚ)]], 1)).pi ≠ List.replicate 1 (1 / (1:ℚ)) := by
  refine ⟨?_, ?_, ?_⟩ <;>
    norm_num [smythDefaultTriple, smythEmissionDistribution, prepareSeqs, partition,
      partitionAux, distinctLabels, selectLabel, listMean, uniformMatrix, EPSILON, extCex3]

/-- C3 (amended): the initializer computes the emission list `B` from
the clustering of the merged observations requested with
`m' = min(target_m, #distinct)` (so, when the clusterer's labels stay
below the requested count, `r = |B| ≤ m'`); the INITIAL triple handed
to training has a uniform `r×r` transition matrix with every entry
`1/r` and a uniform initial distribution of length `r`; the RETURNED
triple consists of the post-training transition matrix and initial
distribution together with the variance-floored PRE-training emission
list (means preserved). -/
theorem smythDefaultTriple_shape (ext : ExtCap) (S : List TSeq) (target_m : ℕ)
    (B : List (ℚ × ℚ)) (r : ℕ) (init : Triple)
    (hB : B = smythEmissionDistribution ext (S, target_m))
    (hr : r = B.length)
    (hinit : init = ⟨uniformMatrix r r (1 / (r : ℚ)), B, List.replicate r (1 / (r : ℚ))⟩)
    (hk : ∀ l ∈ ext.k_means (prepareSeqs S).1 (min target_m (prepareSeqs S).2.length),
      l < min target_m (prepareSeqs S).2.length) :
    r ≤ min target_m (prepareSeqs S).2.length ∧
    init.A.length = r ∧
    (∀ row ∈ init.A, row.length = r ∧ ∀ x ∈ row, x = 1 / (r : ℚ)) ∧
    init.pi.length = r ∧
    (∀ x ∈ init.pi, x = 1 / (r : ℚ)) ∧
    smythDefaultTriple ext (S, target_m) =
      ⟨(ext.baumWelch init S).A, B.map (fun b => (b.1, max b.2 EPSILON)),
        (ext.baumWelch init S).pi⟩ ∧
    (smythDefaultTriple ext (S, target_m)).B.map Prod.fst = B.map Prod.fst := by
  subst hB hr hinit
  refine ⟨?_, ?_, ?_, ?_, ?_, ?_, ?_⟩
  · simp only [smythEmissionDistribution, List.length_map]
    exact partition_length_le _ _ _ hk
  · simp [uniformMatrix]
  · intro row hrow
    have hrow' : row = List.replicate (smythEmissionDistribution ext (S, target_m)).length
        (1 / ((smythEmissionDistribution ext (S, target_m)).length : ℚ)) :=
      List.eq_of_mem_replicate hrow
    subst hrow'
    exact ⟨by simp, fun x hx => List.eq_of_mem_replicate hx⟩
  · simp
  · exact fun x hx => List.eq_of_mem_replicate hx
  · rfl
  · have hBf : (smythDefaultTriple ext (S, target_m)).B =
        (smythEmissionDistribution ext (S, target_m)).map (fun b => (b.1, max b.2 EPSILON)) :=
      rfl
    rw [hBf, List.map_map]
    rfl

/-- C3 witness: the amended theorem instantiated on a one-sequence,
one-state run under `extW`. -/
theorem smythDefaultTriple_shape_witness :
    [((1:ℚ), (1:ℚ))].length ≤ min 1 ((prepareSeqs [[(1:ℚ)]]).2.length) ∧
    smythDefaultTriple extW ([[(1:ℚ)]], 1) =
      ⟨(extW.baumWelch initW [[(1:ℚ)]]).A,
        [((1:ℚ), (1:ℚ))].map (fun b => (b.1, max b.2 EPSILON)),
        (extW.baumWelch initW [[(1:ℚ)]]).pi⟩ := by
  have h := smythDefaultTriple_shape extW [[(1:ℚ)]] 1 [((1:ℚ), (1:ℚ))] 1 initW
    (by norm_num [smythEmissionDistribution, prepareSeqs, partition, partitionAux,
      distinctLabels, selectLabel, listMean, extW])
    (by decide)
    (by norm_num [initW, uniformMatrix])
    (by norm_num [prepareSeqs, extW])
  exact ⟨h.1, h.2.2.2.2.2.1⟩

/-- C4: when every partition has exactly `k` clusters (as the claim's
setting provides), the per-`k` components reassembled from the single
flattened batch by the index walk equal, cluster by cluster and in the
partition's original cluster order, the training results of that `k`'s
partition — the index walk mirrors the flattening order. -/
theorem trainModels_reassembly (ext : ExtCap) (kvs : List ℕ)
    (partitions : ℕ → List (List TSeq)) (m : ℕ)
    (h : ∀ k ∈ kvs, (partitions k).length = k) :
    trainModels ext kvs partitions m = kvs.map (fun k =>
      (k, ⟨(partitions k).map (fun c => trainHMM ext (c, m)),
           (partitions k).map List.length,
           (partitions k).map (fun c => c.map List.length)⟩)) := by
  revert h
  induction kvs with
  | nil => intro _; rfl
  | cons k rest ih =>
    intro h
    have hk : (partitions k).length = k := h k (by simp)
    have hrest : ∀ k' ∈ rest, (partitions k').length = k' :=
      fun k' hk' => h k' (by simp [hk'])
    have hih := ih hrest
    unfold trainModels at hih ⊢
    simp only [List.flatMap_cons, List.map_append, List.map_cons]
    unfold reassemble
    have t1 : ((partitions k).map (fun c => trainHMM ext (c, m))).length = k := by
      rw [List.length_map, hk]
    have t2 : ((partitions k).map List.length).length = k := by
      rw [List.length_map, hk]
    have t3 : ((partitions k).map (fun c => c.map List.length)).length = k := by
      rw [List.length_map, hk]
    rw [List.take_left' t1, List.take_left' t2, List.take_left' t3,
        List.drop_left' t1, List.drop_left' t2, List.drop_left' t3, hih]

/-- C4 witness: a one-`k` batch with one single-sequence cluster. -/
theorem trainModels_reassembly_witness :
    trainModels extW [1] partitionsW 1 = [1].map (fun k =>
      (k, ⟨(partitionsW k).map (fun c => trainHMM extW (c, 1)),
           (partitionsW k).map List.length,
           (partitionsW k).map (fun c => c.map List.length)⟩)) :=
  trainModels_reassembly extW [1] partitionsW 1 (by decide)

/-- C5 counterexample: for a single sequence (`n = 1`) the HMM strategy
produces no matrix at all — `shifted` is empty and `min(shifted)`
raises `ValueError` — instead of the empty condensed matrix of length
`n(n-1)/2 = 0` the claim asserts. -/
theorem distMatrix_n1_cex :
    getHMMDistMatrix extW [[(1:ℚ)]] 1 500000 = none := by
  norm_num [getHMMDistMatrix, hmmItems, getHMMBatchItems, initHMMs, upperPairs,
    smythDefaultTriple, smythEmissionDistribution, prepareSeqs, partition, partitionAux,
    distinctLabels, selectLabel, listMean, uniformMatrix, EPSILON, nBatchItems,
    drainChunks, islice, poolMap, symDistance, itemL1, itemL2, extW]

/-- C5 (amended): the edit strategy returns, for EVERY `n` (including
`n ≤ 1`), exactly `n(n-1)/2` entries, one per unordered pair in
row-major order, each `≥ 0`; whenever the HMM strategy returns a matrix
at all (all log-likelihood assertions passed and `n ≥ 2`; for `n ≤ 1`
it raises on `min` of the empty list and returns nothing), that matrix
likewise has exactly `n(n-1)/2` entries, each `≥ 0`.  Entries are exact
rationals in the model, hence finite. -/
theorem distMatrix_shape (ext : ExtCap) (S : List TSeq) (m bs : ℕ) :
    (∀ mat, 1 ≤ bs → getHMMDistMatrix ext S m bs = some mat →
      mat.length = S.length * (S.length - 1) / 2 ∧ ∀ x ∈ mat, 0 ≤ x) ∧
    ((getEditDistMatrix S).length = S.length * (S.length - 1) / 2 ∧
      ∀ x ∈ getEditDistMatrix S, 0 ≤ x) := by
  constructor
  · intro mat hbs hmat
    rw [getHMMDistMatrix_eq_unchunked ext S m bs hbs] at hmat
    unfold getHMMDistMatrixUnchunked at hmat
    cases hpool : poolMap (symDistance ext) (hmmItems ext S m) with
    | none => rw [hpool] at hmat; simp at hmat
    | some condensed =>
      rw [hpool, Option.some_bind] at hmat
      by_cases hemp : (condensed.map (fun l => (-1 : ℚ) * l)).isEmpty
      · rw [if_pos hemp] at hmat; simp at hmat
      · rw [if_neg hemp] at hmat
        have hmat' : mat = condensed.map (fun l => (-1 : ℚ) * l) := by
          simpa using hmat.symm
        subst hmat'
        refine ⟨?_, ?_⟩
        · rw [List.length_map, poolMap_length _ _ _ hpool, hmmItems_length, nBatchItems_eq]
        · intro x hx
          rcases List.mem_map.mp hx with ⟨c, hc, rfl⟩
          rcases poolMap_mem _ _ _ hpool c hc with ⟨a, _, hfa⟩
          unfold symDistance at hfa
          by_cases hcond : itemL1 ext a ≤ 0 ∧ itemL2 ext a ≤ 0
          · rw [if_pos hcond] at hfa
            have havg : (itemL1 ext a + itemL2 ext a) / 2 = c := by simpa using hfa
            have h1 := hcond.1
            have h2 := hcond.2
            linarith
          · rw [if_neg hcond] at hfa
            simp at hfa
  · constructor
    · unfold getEditDistMatrix
      rw [List.length_map, upperPairs_length]
    · intro x hx
      rcases List.mem_map.mp hx with ⟨p, _, rfl⟩
      exact Nat.cast_nonneg _

/-- C5 witness: the amended theorem applied to a concrete two-sequence
input (exercising the HMM implication on its `some`-matrix run) and to
a one-sequence input (edit strategy at `n = 1`, where the HMM strategy
produces nothing). -/
theorem distMatrix_shape_witness :
    getHMMDistMatrix extW [[(1:ℚ)], [(2:ℚ)]] 1 1 = some [(1:ℚ)] ∧
    [(1:ℚ)].length = 2 * (2 - 1) / 2 ∧
    (getEditDistMatrix [[(1:ℚ)], [(2:ℚ)]]).length = 2 * (2 - 1) / 2 ∧
    (getEditDistMatrix [[(1:ℚ)]]).length = 1 * (1 - 1) / 2 := by
  have hmat : getHMMDistMatrix extW [[(1:ℚ)], [(2:ℚ)]] 1 1 = some [(1:ℚ)] := by
    norm_num [getHMMDistMatrix, hmmItems, getHMMBatchItems, initHMMs, upperPairs,
      smythDefaultTriple, smythEmissionDistribution, prepareSeqs, partition, partitionAux,
      distinctLabels, selectLabel, listMean, uniformMatrix, EPSILON, nBatchItems,
      drainChunks, islice, poolMap, symDistance, itemL1, itemL2, extW]
  have h2 := distMatrix_shape extW [[(1:ℚ)], [(2:ℚ)]] 1 1
  have h1 := distMatrix_shape extW [[(1:ℚ)]] 1 1
  exact ⟨hmat, (h2.1 [(1:ℚ)] (by decide) hmat).1, h2.2.1, h1.2.1⟩

/-- C6: for every input and every chunk size `≥ 1`, the chunked
HMM-distance computation (fixed-size sub-batches drained sequentially)
returns exactly the same condensed matrix, in the same row-major order,
as the unchunked computation over all pairs at once. -/
theorem chunked_unchunked_eq (ext : ExtCap) (S : List TSeq) (m bs : ℕ) (hbs : 1 ≤ bs) :
    getHMMDistMatrix ext S m bs = getHMMDistMatrixUnchunked ext S m :=
  getHMMDistMatrix_eq_unchunked ext S m bs hbs

/-- C6 witness: chunk size 1 on a two-sequence input. -/
theorem chunked_unchunked_eq_witness :
    getHMMDistMatrix extW [[(1:ℚ)], [(2:ℚ)]] 1 1 =
      getHMMDistMatrixUnchunked extW [[(1:ℚ)], [(2:ℚ)]] 1 :=
  chunked_unchunked_eq extW [[(1:ℚ)], [(2:ℚ)]] 1 1 (by decide)

/-- C7: for every configuration with `min_k > max_k` or a
distance-function, initialization, clustering-algorithm, or
training-mode name outside the recognized sets, construction fails
(`__init__` raises in `_sanityCheck`) and the worker pool is never
created — the validation runs before `Pool(n_jobs)` and before any task
submission. -/
theorem invalid_config_fails_fast (c : HMMClusterConfig)
    (h : c.max_k < c.min_k ∨ c.dist_func ∉ ["hmm", "editdistance"] ∨
      c.hmm_init ∉ ["smyth", "random"] ∨ c.clust_alg ∉ ["hierarchical", "kmedoids"] ∨
      c.train_mode ∉ ["blockdiag", "cluster"]) :
    hmmClusterInit c = none ∧ InitEvent.pool_create ∉ initTrace c := by
  have hs : sanityCheck c = false := by
    unfold sanityCheck
    rw [decide_eq_false_iff_not]
    rintro ⟨h1, h2, h3, h4, h5⟩
    rcases h with hh | hh | hh | hh | hh
    · omega
    · exact hh h2
    · exact hh h3
    · exact hh h4
    · exact hh h5
  unfold hmmClusterInit initTrace
  rw [hs]
  simp

/-- C7 witness: the invalid configuration `min_k = 2 > 1 = max_k`. -/
theorem invalid_config_fails_fast_witness :
    hmmClusterInit cfgBad = none ∧ InitEvent.pool_create ∉ initTrace cfgBad :=
  invalid_config_fails_fast cfgBad (Or.inl (by decide))

/-- C8: the pipeline is a pure function of the input sequences, the
configuration, and the external capabilities (which carry any random
seeds): two runs on identical inputs yield identical distance matrices,
labelings, partitions, trained triples and composites for every `k`. -/
theorem pipeline_deterministic (ext1 ext2 : ExtCap) (S1 S2 : List TSeq)
    (m1 m2 : ℕ) (cfg1 cfg2 : HMMClusterConfig) (bs1 bs2 : ℕ)
    (hext : ext1 = ext2) (hS : S1 = S2) (hm : m1 = m2) (hcfg : cfg1 = cfg2)
    (hbs : bs1 = bs2) :
    modelPipeline ext1 S1 m1 cfg1 bs1 = modelPipeline ext2 S2 m2 cfg2 bs2 := by
  subst hext hS hm hcfg hbs
  rfl

/-- C8 witness: two identical concrete runs. -/
theorem pipeline_deterministic_witness :
    modelPipeline extW [[(1:ℚ)]] 1 cfgW 1 = modelPipeline extW [[(1:ℚ)]] 1 cfgW 1 :=
  pipeline_deterministic extW extW [[(1:ℚ)]] [[(1:ℚ)]] 1 1 cfgW cfgW 1 1
    rfl rfl rfl rfl rfl

/-- C9: the hierarchical strategy calls `treecluster` exactly once (each
`k` only cuts the one tree), and — given the cut capability's
guarantees (labels of length `n`, values in `[0, k)`, every value
hit) — each `k`'s partition has exactly `k` non-empty groups and the
groups' sequence indices form a permutation of `0..n-1` (full index
set, no duplicates). -/
theorem hierarchical_partition_props (ext : ExtCap) (S : List TSeq) (dm : List ℚ)
    (kvs : List ℕ)
    (hlen : ∀ k ∈ kvs, (ext.cut (ext.treecluster dm) k).length = S.length)
    (hlt : ∀ k ∈ kvs, ∀ l ∈ ext.cut (ext.treecluster dm) k, l < k)
    (hsur : ∀ k ∈ kvs, ∀ j, j < k → j ∈ ext.cut (ext.treecluster dm) k) :
    (hierarchicalTrace kvs).count ClustEvent.treecluster_call = 1 ∧
    ∀ p ∈ (hierarchicalPartitions ext S dm kvs).2,
      p.2.length = p.1 ∧ (∀ g ∈ p.2, g ≠ []) ∧
      ((partition (List.range S.length)
        (ext.cut (ext.treecluster dm) p.1)).flatten).Perm (List.range S.length) := by
  constructor
  · unfold hierarchicalTrace
    rw [List.count_cons_self]
    have hz : (kvs.map ClustEvent.cut_call).count ClustEvent.treecluster_call = 0 := by
      rw [List.count_eq_zero]
      intro hmem
      rcases List.mem_map.mp hmem with ⟨k, _, hk⟩
      exact ClustEvent.noConfusion hk
    rw [hz]
  · intro p hp
    unfold hierarchicalPartitions at hp
    simp only [List.mem_map] at hp
    rcases hp with ⟨k, hkmem, rfl⟩
    refine ⟨?_, ?_, ?_⟩
    · exact partition_length_of_labels S _ k (hlen k hkmem) (hlt k hkmem) (hsur k hkmem)
    · exact partition_groups_ne_nil S _
    · exact partition_flatten_perm (List.range S.length) _
        (by rw [List.length_range]; exact hlen k hkmem)

/-- C9 witness: two sequences, cutting at `k = 2`. -/
theorem hierarchical_partition_props_witness :
    (extW.cut (extW.treecluster [(1:ℚ)]) 2).length = ([[(1:ℚ)], [(2:ℚ)]] : List TSeq).length ∧
    (hierarchicalTrace [2]).count ClustEvent.treecluster_call = 1 := by
  have h := hierarchical_partition_props extW [[(1:ℚ)], [(2:ℚ)]] [(1:ℚ)] [2]
    (by decide) (by decide) (by decide)
  exact ⟨by decide, h.1⟩

/-- C10: in `_getHMMDistMatrix` the timer variable `start` is clobbered
by the chunk loop's `start, stop = batch_size*i, ...`, so
`self.times['distance_matrix'] = clock() - start` records the final
clock reading minus a pair INDEX, not the stage's wall-clock duration:
with `n = 2` sequences, stage start at clock 100 and end at clock 105,
the code records 105 instead of the elapsed 5. -/
theorem distance_matrix_time_bug :
    recordedDistanceMatrixTime 100 105 2 500000 = 105 ∧
    recordedDistanceMatrixTime 100 105 2 500000 ≠ 105 - 100 := by
  have hr : List.range 1 = [0] := rfl
  constructor <;>
    norm_num [recordedDistanceMatrixTime, startVarAfterLoop, nBatchItems, hr,
      List.foldl_cons, List.foldl_nil]
